import Mathlib

/-!
Verification of the FatDB adapter (src/util/src/trie/fatdb.rs).

The adapter hashes caller keys into fixed-size digests, delegates to an
underlying digest-keyed trie, records a digest-to-key side index through the
backing store's auxiliary channel, and reconstructs original keys during
iteration. The trie engine, backing store and hash function are external
collaborators (spec sections 1 and 6); they are modelled here from the spec.
-/

/-- Caller-supplied keys: arbitrary-length byte sequences. -/
abbrev Key := List Nat

/-- Stored values: arbitrary-length byte sequences. -/
abbrev Value := List Nat

/-- Modelled from the spec: a Digest is a fixed-size value deterministically
derived from a Key; we model the fixed-size digest value as a natural number. -/
abbrev Digest := Nat

/-- Association list from digests to byte sequences, used both for the
digest-keyed trie contents and for the auxiliary side-index channel. -/
abbrev AssocList := List (Digest × List Nat)

/-- Modelled from the spec: the external trie engine's insert
(`insert(&mut self, digest, value)`), an opaque keyed store addressed by
digest, overwriting any prior value at that digest. Entries are kept in
strictly increasing digest order, so that the native iterator's digest-order
traversal is the list order. The same operation models the auxiliary
channel's `insert_aux` (unconditional upsert). -/
def alInsert (d : Digest) (v : List Nat) : AssocList → AssocList
  | [] => [(d, v)]
  | e :: rest =>
    if d < e.1 then (d, v) :: e :: rest
    else if d = e.1 then (d, v) :: rest
    else e :: alInsert d v rest

/-- Modelled from the spec: the external trie engine's remove
(`remove(&mut self, digest)`): deletes the entry at the digest if present,
no-op if absent. -/
def alRemove (d : Digest) : AssocList → AssocList
  | [] => []
  | e :: rest => if e.1 = d then alRemove d rest else e :: alRemove d rest

/-- Modelled from the spec: the external trie engine's digest lookup
(`get(&self, digest) -> Option<&Value>`); also models the auxiliary
channel's `get_aux`. -/
def alGet (d : Digest) : AssocList → Option (List Nat)
  | [] => none
  | e :: rest => if e.1 = d then some e.2 else alGet d rest

/-- Modelled from the spec: the external trie engine's membership test
(`contains(&self, digest) -> bool`). -/
def alContains (d : Digest) (t : AssocList) : Bool :=
  (alGet d t).isSome

/-- State reachable through a FatDB adapter: the digest-keyed trie contents
and the backing store's auxiliary channel holding the side index. The root
digest cryptographically commits to the entire trie contents (spec glossary),
so we model the root as the canonical trie contents themselves. -/
structure FatDBState where
  trie : AssocList
  aux : AssocList
deriving DecidableEq

/-- Construction (FatDB::new) over an empty trie and an empty backing store. -/
def FatDB.new : FatDBState := ⟨[], []⟩

/-- Insert (FatDB, fatdb.rs lines 70-75): hash the key, insert the value
into the trie at the digest, then record (digest, key) in the auxiliary
channel. -/
def FatDB.insert (hash : Key → Digest) (k : Key) (v : Value) (s : FatDBState) :
    FatDBState :=
  ⟨alInsert (hash k) v s.trie, alInsert (hash k) k s.aux⟩

/-- Remove (FatDB, fatdb.rs lines 77-79): hash the key and remove the trie
entry at the digest; the auxiliary channel is left untouched. -/
def FatDB.remove (hash : Key → Digest) (k : Key) (s : FatDBState) :
    FatDBState :=
  ⟨alRemove (hash k) s.trie, s.aux⟩

/-- Get (FatDB, fatdb.rs lines 64-66): look up the digest of the key. -/
def FatDB.get (hash : Key → Digest) (k : Key) (s : FatDBState) :
    Option Value :=
  alGet (hash k) s.trie

/-- Membership (FatDB, fatdb.rs lines 60-62): existence of the key's digest. -/
def FatDB.contains (hash : Key → Digest) (k : Key) (s : FatDBState) : Bool :=
  alContains (hash k) s.trie

/-- Root (FatDB via Trie::root, fatdb.rs lines 56-58): the digest
identifying the current trie state, modelled as the canonical trie contents. -/
def FatDB.root (s : FatDBState) : AssocList :=
  s.trie

/-- Modelled from the spec: the cryptographic hash is a black-box
deterministic function from keys to fixed-size digests; for concrete
evaluation we use an injective encoding of byte sequences into naturals. -/
def hashModel : Key → Digest
  | [] => 0
  | x :: xs => Nat.pair x (hashModel xs) + 1

/-- An adapter mutation: the two `TrieMut` operations FatDB implements. -/
inductive Op where
  | ins (k : Key) (v : Value)
  | rem (k : Key)
deriving DecidableEq

/-- Apply one adapter mutation. -/
def applyOp (hash : Key → Digest) (s : FatDBState) : Op → FatDBState
  | Op.ins k v => FatDB.insert hash k v s
  | Op.rem k => FatDB.remove hash k s

/-- Run a sequence of adapter mutations from a state. -/
def runOps (hash : Key → Digest) (ops : List Op) (s : FatDBState) :
    FatDBState :=
  ops.foldl (applyOp hash) s

/-- Run a sequence of inserts from a state. -/
def runInserts (hash : Key → Digest) (ps : List (Key × Value))
    (s : FatDBState) : FatDBState :=
  ps.foldl (fun s p => FatDB.insert hash p.1 p.2 s) s

/-! The reconstructing iterator. -/

/-- Modelled from the spec: the underlying trie's native iterator
(TrieDBIterator) lazily yields the remaining (digest, value) entries one at
a time in digest order; the iterator state is the remaining entry list. -/
def trieIterNext (it : AssocList) :
    Option ((Digest × List Nat) × AssocList) :=
  match it with
  | [] => none
  | e :: rest => some (e, rest)

/-- FatDBIterator next (fatdb.rs lines 100-105): pull the next (digest,
value) pair from the trie iterator and replace the digest with the key
recorded for it in the auxiliary channel. A none key models the fatal
"Missing fatdb hash" expect on a missing side-index entry. -/
def fatNext (aux : AssocList) (it : AssocList) :
    Option ((Option Key × List Nat) × AssocList) :=
  (trieIterNext it).map (fun p => ((alGet p.1.1 aux, p.1.2), p.2))

/-- Drain a FatDBIterator by repeatedly calling next, with explicit fuel. -/
def fatIterCollect (aux : AssocList) : Nat → AssocList →
    List (Option Key × List Nat)
  | 0, _ => []
  | Nat.succ fuel, it =>
    match fatNext aux it with
    | none => []
    | some (item, rest) => item :: fatIterCollect aux fuel rest

/-- The full sequence yielded by a FatDBIterator over the read-only trie
view `it` with auxiliary channel `aux`. -/
def fatIterRun (aux : AssocList) (it : AssocList) :
    List (Option Key × List Nat) :=
  fatIterCollect aux it.length it

/-- Stated from the spec's words for claim C9: the sequence yielded by the
underlying trie iterator with each digest replaced by its side-index key. -/
def fatIterSpec (aux : AssocList) (it : AssocList) :
    List (Option Key × List Nat) :=
  it.map (fun e => (alGet e.1 aux, e.2))

/-! Side-index invariants over adapter-reachable states. -/

/-- Every trie entry's digest has a side-index key recorded for it, and that
key hashes back to the digest. -/
def SideOk (hash : Key → Digest) (s : FatDBState) : Prop :=
  ∀ e ∈ s.trie, ∃ k, alGet e.1 s.aux = some k ∧ hash k = e.1

/-- Bool-valued form of SideOk, evaluable on concrete states. -/
def sideOkB (hash : Key → Digest) (s : FatDBState) : Bool :=
  s.trie.all (fun e =>
    match alGet e.1 s.aux with
    | some k => hash k == e.1
    | none => false)

/-- Every key recorded in the auxiliary channel hashes back to the digest it
is recorded under; holds for all states reachable through the adapter. -/
def AuxOk (hash : Key → Digest) (aux : AssocList) : Prop :=
  ∀ d k, alGet d aux = some k → hash k = d

/-! Basic lemmas about the modelled store operations. -/

theorem alGet_alInsert_self (d : Digest) (v : List Nat) (t : AssocList) :
    alGet d (alInsert d v t) = some v := by
  induction t with
  | nil => simp [alInsert, alGet]
  | cons e rest ih =>
    by_cases h1 : d < e.1
    · simp [alInsert, alGet, h1]
    · by_cases h2 : d = e.1
      · simp [alInsert, alGet, h1, h2]
      · have h3 : e.1 ≠ d := fun h => h2 h.symm
        simp [alInsert, alGet, h1, h2, h3, ih]

theorem alGet_alInsert_ne (d d' : Digest) (v : List Nat) (t : AssocList)
    (h : d' ≠ d) : alGet d' (alInsert d v t) = alGet d' t := by
  induction t with
  | nil => simp [alInsert, alGet, Ne.symm h]
  | cons e rest ih =>
    by_cases h1 : d < e.1
    · simp [alInsert, alGet, h1, Ne.symm h]
    · by_cases h2 : d = e.1
      · subst h2
        simp [alInsert, alGet, h1, Ne.symm h]
      · simp only [alInsert, if_neg h1, if_neg h2, alGet, ih]

theorem alGet_alRemove_self (d : Digest) (t : AssocList) :
    alGet d (alRemove d t) = none := by
  induction t with
  | nil => simp [alRemove, alGet]
  | cons e rest ih =>
    by_cases h : e.1 = d
    · simpa [alRemove, alGet, h] using ih
    · simpa [alRemove, alGet, h] using ih

theorem alGet_alRemove_ne (d d' : Digest) (t : AssocList) (h : d' ≠ d) :
    alGet d' (alRemove d t) = alGet d' t := by
  induction t with
  | nil => simp [alRemove, alGet]
  | cons e rest ih =>
    by_cases h1 : e.1 = d
    · have h2 : e.1 ≠ d' := by rw [h1]; exact Ne.symm h
      simp [alRemove, alGet, h1, h2, Ne.symm h, ih]
    · simp only [alRemove, if_neg h1, alGet, ih]

theorem alInsert_idem (d : Digest) (v : List Nat) (t : AssocList) :
    alInsert d v (alInsert d v t) = alInsert d v t := by
  induction t with
  | nil => simp [alInsert]
  | cons e rest ih =>
    by_cases h1 : d < e.1
    · simp [alInsert, h1]
    · by_cases h2 : d = e.1
      · simp [alInsert, h1, h2]
      · simp [alInsert, h1, h2, ih]

/-- Claim C1: after insert(k, v) on a FatDB adapter, get(k) returns some v
and contains(k) returns true, from any prior adapter state. -/
theorem fatdb_insert_get_contains (hash : Key → Digest) (k : Key) (v : Value)
    (s : FatDBState) :
    FatDB.get hash k (FatDB.insert hash k v s) = some v ∧
    FatDB.contains hash k (FatDB.insert hash k v s) = true := by
  constructor
  · simp [FatDB.get, FatDB.insert, alGet_alInsert_self]
  · simp [FatDB.contains, FatDB.insert, alContains, alGet_alInsert_self]

/-- Claim C2: after insert(k, v) followed by remove(k) on a FatDB adapter,
get(k) returns none and contains(k) returns false, from any prior state. -/
theorem fatdb_remove_get_contains (hash : Key → Digest) (k : Key) (v : Value)
    (s : FatDBState) :
    FatDB.get hash k (FatDB.remove hash k (FatDB.insert hash k v s)) = none ∧
    FatDB.contains hash k (FatDB.remove hash k (FatDB.insert hash k v s))
      = false := by
  constructor
  · simp [FatDB.get, FatDB.remove, FatDB.insert, alGet_alRemove_self]
  · simp [FatDB.contains, FatDB.remove, FatDB.insert, alContains,
      alGet_alRemove_self]

/-- Claim C4: inserting the same (k, v) pair twice leaves get(k) and
current_root() equal to their values after a single insert. -/
theorem fatdb_insert_idempotent (hash : Key → Digest) (k : Key) (v : Value)
    (s : FatDBState) :
    FatDB.get hash k (FatDB.insert hash k v (FatDB.insert hash k v s)) =
      FatDB.get hash k (FatDB.insert hash k v s) ∧
    FatDB.root (FatDB.insert hash k v (FatDB.insert hash k v s)) =
      FatDB.root (FatDB.insert hash k v s) := by
  constructor
  · simp [FatDB.get, FatDB.insert, alGet_alInsert_self]
  · simp [FatDB.root, FatDB.insert, alInsert_idem]

theorem fatIterCollect_eq_map (aux : AssocList) (it : AssocList) :
    fatIterCollect aux it.length it = fatIterSpec aux it := by
  induction it with
  | nil => rfl
  | cons e rest ih =>
    simp [fatIterCollect, fatNext, trieIterNext, fatIterSpec] at ih ⊢
    exact ih

/-- Claim C9: the sequence of pairs yielded by the FatDBIterator equals the
sequence yielded by the underlying trie iterator with each digest replaced
by its side-index lookup: same length, same values, same digest-traversal
order, with no reordering, filtering or added elements. -/
theorem fatdb_iterator_refines_map (aux it : AssocList) :
    fatIterRun aux it = fatIterSpec aux it ∧
    (fatIterRun aux it).length = it.length := by
  have h := fatIterCollect_eq_map aux it
  exact ⟨h, by simp [fatIterRun, h, fatIterSpec]⟩

theorem runInserts_trie_indep (hash : Key → Digest)
    (ps : List (Key × Value)) :
    ∀ (t a1 a2 : AssocList),
      (runInserts hash ps ⟨t, a1⟩).trie = (runInserts hash ps ⟨t, a2⟩).trie := by
  induction ps with
  | nil => intro t a1 a2; rfl
  | cons p rest ih =>
    intro t a1 a2
    simpa [runInserts, FatDB.insert] using
      ih (alInsert (hash p.1) p.2 t) (alInsert (hash p.1) p.1 a1)
        (alInsert (hash p.1) p.1 a2)

/-- Claim C5: two FatDB adapters, each constructed over a fresh empty trie
(possibly over backing stores whose auxiliary channels differ) and given the
same sequence of inserts, reach the same current_root() value. -/
theorem fatdb_root_deterministic (hash : Key → Digest)
    (ps : List (Key × Value)) (a1 a2 : AssocList) :
    FatDB.root (runInserts hash ps ⟨[], a1⟩) =
      FatDB.root (runInserts hash ps ⟨[], a2⟩) := by
  simpa [FatDB.root] using runInserts_trie_indep hash ps [] a1 a2

/-- Claim C10: for keys whose digests differ, insert(k, v) and remove(k)
leave get(k') and contains(k') unchanged. -/
theorem fatdb_frame_other_key (hash : Key → Digest) (k k' : Key) (v : Value)
    (s : FatDBState) (h : hash k' ≠ hash k) :
    FatDB.get hash k' (FatDB.insert hash k v s) = FatDB.get hash k' s ∧
    FatDB.contains hash k' (FatDB.insert hash k v s) =
      FatDB.contains hash k' s ∧
    FatDB.get hash k' (FatDB.remove hash k s) = FatDB.get hash k' s ∧
    FatDB.contains hash k' (FatDB.remove hash k s) =
      FatDB.contains hash k' s := by
  refine ⟨?_, ?_, ?_, ?_⟩
  · simp [FatDB.get, FatDB.insert, alGet_alInsert_ne _ _ _ _ h]
  · simp [FatDB.contains, FatDB.insert, alContains,
      alGet_alInsert_ne _ _ _ _ h]
  · simp [FatDB.get, FatDB.remove, alGet_alRemove_ne _ _ _ h]
  · simp [FatDB.contains, FatDB.remove, alContains,
      alGet_alRemove_ne _ _ _ h]

/-- Witness for claim C10 at concrete keys with distinct digests. -/
theorem fatdb_frame_other_key_witness :
    hashModel [1] ≠ hashModel [0] ∧
    FatDB.get hashModel [1]
        (FatDB.insert hashModel [0] [5] ⟨[(1, [7])], [(1, [1])]⟩) =
      FatDB.get hashModel [1] ⟨[(1, [7])], [(1, [1])]⟩ :=
  ⟨by decide,
    (fatdb_frame_other_key hashModel [0] [1] [5] ⟨[(1, [7])], [(1, [1])]⟩
      (by decide)).1⟩

theorem list_any_map {α β : Type} (f : α → β) (p : β → Bool) (l : List α) :
    (l.map f).any p = l.any (fun a => p (f a)) := by
  induction l with
  | nil => rfl
  | cons x xs ih => simp only [List.map_cons, List.any_cons, ih]

theorem list_all_map {α β : Type} (f : α → β) (p : β → Bool) (l : List α) :
    (l.map f).all p = l.all (fun a => p (f a)) := by
  induction l with
  | nil => rfl
  | cons x xs ih => simp only [List.map_cons, List.all_cons, ih]

/-- Claim C8: over a trie view, the FatDBIterator's next hits its fatal
missing-side-index branch (a none key in the model) exactly when the
underlying trie iterator yields a digest with no recorded key in the
auxiliary channel; when every yielded digest has a recorded key, every
yielded item carries a reconstructed key. -/
theorem fatdb_iter_panic_iff_missing (aux it : AssocList) :
    ((fatIterRun aux it).any (fun p => p.1.isNone) =
      it.any (fun e => (alGet e.1 aux).isNone)) ∧
    (it.all (fun e => (alGet e.1 aux).isSome) = true →
      (fatIterRun aux it).all (fun p => p.1.isSome) = true) := by
  constructor
  · rw [fatIterRun, fatIterCollect_eq_map, fatIterSpec, list_any_map]
  · intro h
    rw [fatIterRun, fatIterCollect_eq_map, fatIterSpec, list_all_map]
    exact h

/-- Witness for claim C8: with every trie digest recorded in the auxiliary
channel, iteration yields only reconstructed keys. -/
theorem fatdb_iter_panic_iff_missing_witness :
    (([(1, [9])] : AssocList).all
        (fun e => (alGet e.1 [(1, [2])]).isSome) = true) ∧
    (fatIterRun [(1, [2])] [(1, [9])]).all (fun p => p.1.isSome) = true :=
  ⟨by decide, (fatdb_iter_panic_iff_missing [(1, [2])] [(1, [9])]).2 (by decide)⟩

theorem sideOkB_iff (hash : Key → Digest) (s : FatDBState) :
    sideOkB hash s = true ↔ SideOk hash s := by
  simp only [sideOkB, List.all_eq_true, SideOk]
  constructor
  · intro h e he
    have h1 := h e he
    cases hg : alGet e.1 s.aux with
    | none => rw [hg] at h1; exact absurd h1 (by simp)
    | some k =>
      rw [hg] at h1
      exact ⟨k, rfl, by simpa using h1⟩
  · intro h e he
    obtain ⟨k, hk, hh⟩ := h e he
    rw [hk]
    simpa using hh

theorem mem_alInsert {e : Digest × List Nat} (d : Digest) (v : List Nat)
    (t : AssocList) (h : e ∈ alInsert d v t) : e = (d, v) ∨ e ∈ t := by
  induction t with
  | nil => simpa [alInsert] using h
  | cons e0 rest ih =>
    by_cases h1 : d < e0.1
    · simp only [alInsert, if_pos h1, List.mem_cons] at h ⊢
      tauto
    · by_cases h2 : d = e0.1
      · simp only [alInsert, if_neg h1, if_pos h2, List.mem_cons] at h ⊢
        tauto
      · simp only [alInsert, if_neg h1, if_neg h2, List.mem_cons] at h
        rcases h with h | h
        · right; simp [h]
        · rcases ih h with h3 | h3
          · exact Or.inl h3
          · right; simp [h3]

theorem mem_alRemove_ne {e : Digest × List Nat} (d : Digest) (t : AssocList)
    (h : e ∈ alRemove d t) : e ∈ t ∧ e.1 ≠ d := by
  induction t with
  | nil => simp [alRemove] at h
  | cons e0 rest ih =>
    by_cases h1 : e0.1 = d
    · rw [alRemove, if_pos h1] at h
      obtain ⟨h2, h3⟩ := ih h
      exact ⟨List.mem_cons_of_mem _ h2, h3⟩
    · rw [alRemove, if_neg h1] at h
      rcases List.mem_cons.1 h with h2 | h2
      · subst h2; exact ⟨List.mem_cons_self _ _, h1⟩
      · obtain ⟨h3, h4⟩ := ih h2
        exact ⟨List.mem_cons_of_mem _ h3, h4⟩

theorem sideOk_insert (hash : Key → Digest) (k : Key) (v : Value)
    (s : FatDBState) (h : SideOk hash s) :
    SideOk hash (FatDB.insert hash k v s) := by
  intro e he
  rcases mem_alInsert _ _ _ he with he1 | he2
  · subst he1
    exact ⟨k, by simp [FatDB.insert, alGet_alInsert_self], rfl⟩
  · obtain ⟨k1, hk1, hh1⟩ := h e he2
    by_cases hd : e.1 = hash k
    · exact ⟨k, by simp [FatDB.insert, hd, alGet_alInsert_self], hd.symm⟩
    · refine ⟨k1, ?_, hh1⟩
      show alGet e.1 (alInsert (hash k) k s.aux) = some k1
      rw [alGet_alInsert_ne _ _ _ _ hd]
      exact hk1

theorem sideOk_remove (hash : Key → Digest) (k : Key) (s : FatDBState)
    (h : SideOk hash s) : SideOk hash (FatDB.remove hash k s) := by
  intro e he
  exact h e (mem_alRemove_ne _ _ he).1

theorem sideOk_applyOp (hash : Key → Digest) (s : FatDBState) (op : Op)
    (h : SideOk hash s) : SideOk hash (applyOp hash s op) := by
  cases op with
  | ins k v => exact sideOk_insert hash k v s h
  | rem k => exact sideOk_remove hash k s h

theorem sideOk_runOps (hash : Key → Digest) (ops : List Op) :
    ∀ s : FatDBState, SideOk hash s → SideOk hash (runOps hash ops s) := by
  induction ops with
  | nil => exact fun s h => h
  | cons op rest ih =>
    intro s h
    exact ih (applyOp hash s op) (sideOk_applyOp hash s op h)

/-- Claim C7: in every adapter-reachable state, every digest present as a
trie key has a side-index entry mapping it to the original key; the
invariant holds for every run from a fresh adapter and is preserved by each
insert and remove step. -/
theorem fatdb_side_index_invariant (hash : Key → Digest) :
    (∀ ops, sideOkB hash (runOps hash ops FatDB.new) = true) ∧
    (∀ s op, sideOkB hash s = true → sideOkB hash (applyOp hash s op) = true) := by
  constructor
  · intro ops
    rw [sideOkB_iff]
    apply sideOk_runOps
    intro e he
    simp [FatDB.new] at he
  · intro s op h
    rw [sideOkB_iff] at h ⊢
    exact sideOk_applyOp hash s op h

/-- Witness for claim C7 at a concrete state and step. -/
theorem fatdb_side_index_invariant_witness :
    sideOkB hashModel ⟨[(3, [2])], [(3, [1])]⟩ = true ∧
    sideOkB hashModel
      (applyOp hashModel ⟨[(3, [2])], [(3, [1])]⟩ (Op.rem [2])) = true :=
  ⟨by decide,
    (fatdb_side_index_invariant hashModel).2 ⟨[(3, [2])], [(3, [1])]⟩
      (Op.rem [2]) (by decide)⟩

theorem auxOk_nil (hash : Key → Digest) : AuxOk hash [] := by
  intro d k hk
  simp [alGet] at hk

theorem auxOk_insert (hash : Key → Digest) (k0 : Key) (aux : AssocList)
    (h : AuxOk hash aux) : AuxOk hash (alInsert (hash k0) k0 aux) := by
  intro d k hk
  by_cases hd : d = hash k0
  · subst hd
    rw [alGet_alInsert_self] at hk
    cases hk
    rfl
  · rw [alGet_alInsert_ne _ _ _ _ hd] at hk
    exact h d k hk

theorem auxOk_applyOp (hash : Key → Digest) (s : FatDBState) (op : Op)
    (h : AuxOk hash s.aux) : AuxOk hash (applyOp hash s op).aux := by
  cases op with
  | ins k v => exact auxOk_insert hash k s.aux h
  | rem k => exact h

theorem auxOk_runOps (hash : Key → Digest) (ops : List Op) :
    ∀ s : FatDBState, AuxOk hash s.aux → AuxOk hash (runOps hash ops s).aux := by
  induction ops with
  | nil => exact fun s h => h
  | cons op rest ih =>
    intro s h
    exact ih (applyOp hash s op) (auxOk_applyOp hash s op h)

/-- Claim C6: from any adapter-reachable state, after insert(k, v) followed
by remove(k) the side-index entry for hash(k) still maps to k in the
auxiliary channel, the trie no longer contains the digest hash(k), and no
iteration of the resulting state yields a pair whose reconstructed key is k. -/
theorem fatdb_remove_retains_side_index (hash : Key → Digest) (ops : List Op)
    (k : Key) (v : Value) :
    alGet (hash k)
        (FatDB.remove hash k
          (FatDB.insert hash k v (runOps hash ops FatDB.new))).aux = some k ∧
    FatDB.contains hash k
        (FatDB.remove hash k
          (FatDB.insert hash k v (runOps hash ops FatDB.new))) = false ∧
    (fatIterRun
        (FatDB.remove hash k
          (FatDB.insert hash k v (runOps hash ops FatDB.new))).aux
        (FatDB.remove hash k
          (FatDB.insert hash k v (runOps hash ops FatDB.new))).trie).all
      (fun p => decide (p.1 ≠ some k)) = true := by
  refine ⟨?_, ?_, ?_⟩
  · show alGet (hash k)
      (alInsert (hash k) k (runOps hash ops FatDB.new).aux) = some k
    exact alGet_alInsert_self _ _ _
  · simp [FatDB.contains, FatDB.remove, FatDB.insert, alContains,
      alGet_alRemove_self]
  · have haux : AuxOk hash
        (FatDB.remove hash k
          (FatDB.insert hash k v (runOps hash ops FatDB.new))).aux := by
      show AuxOk hash (alInsert (hash k) k (runOps hash ops FatDB.new).aux)
      exact auxOk_insert hash k _ (auxOk_runOps hash ops FatDB.new (auxOk_nil hash))
    rw [fatIterRun, fatIterCollect_eq_map, fatIterSpec]
    rw [list_all_map]
    rw [List.all_eq_true]
    intro e he
    rw [decide_eq_true_eq]
    intro hk
    have h1 : hash k = e.1 := haux e.1 k hk
    have h2 : e.1 ≠ hash k :=
      (mem_alRemove_ne (hash k)
        (FatDB.insert hash k v (runOps hash ops FatDB.new)).trie he).2
    exact h2 h1.symm

/-! Building a trie by a sequence of inserts. -/

theorem runInserts_cons (hash : Key → Digest) (p : Key × Value)
    (ps : List (Key × Value)) (s : FatDBState) :
    runInserts hash (p :: ps) s =
      runInserts hash ps (FatDB.insert hash p.1 p.2 s) := rfl

theorem alGet_runInserts_aux_frame (hash : Key → Digest) (d : Digest)
    (ps : List (Key × Value)) :
    ∀ s : FatDBState, (∀ p ∈ ps, hash p.1 ≠ d) →
      alGet d (runInserts hash ps s).aux = alGet d s.aux := by
  induction ps with
  | nil => intro s _; rfl
  | cons p rest ih =>
    intro s h
    rw [runInserts_cons]
    rw [ih _ (fun q hq => h q (List.mem_cons_of_mem _ hq))]
    show alGet d (alInsert (hash p.1) p.1 s.aux) = alGet d s.aux
    exact alGet_alInsert_ne _ _ _ _ (Ne.symm (h p (List.mem_cons_self _ _)))

theorem alInsert_perm_cons (d : Digest) (v : List Nat) (t : AssocList)
    (h : alGet d t = none) : (alInsert d v t).Perm ((d, v) :: t) := by
  induction t with
  | nil =>
    simp only [alInsert]
    exact List.Perm.refl _
  | cons e rest ih =>
    have he : e.1 ≠ d := by
      intro hh
      simp only [alGet, if_pos hh] at h
      exact Option.noConfusion h
    have hrest : alGet d rest = none := by simpa [alGet, he] using h
    by_cases h1 : d < e.1
    · simp only [alInsert, if_pos h1]
      exact List.Perm.refl _
    · have h2 : d ≠ e.1 := fun hh => he hh.symm
      simp only [alInsert, if_neg h1, if_neg h2]
      exact ((ih hrest).cons e).trans (List.Perm.swap (d, v) e rest)

theorem runInserts_build (hash : Key → Digest) (ps : List (Key × Value)) :
    ∀ s : FatDBState,
      (ps.map (fun p => hash p.1)).Nodup →
      (∀ p ∈ ps, alGet (hash p.1) s.trie = none) →
      (runInserts hash ps s).trie.Perm
          (ps.map (fun p => (hash p.1, p.2)) ++ s.trie) ∧
      ∀ p ∈ ps, alGet (hash p.1) (runInserts hash ps s).aux = some p.1 := by
  induction ps with
  | nil =>
    intro s _ _
    refine ⟨List.Perm.refl s.trie, ?_⟩
    intro p hp
    exact absurd hp (List.not_mem_nil p)
  | cons p rest ih =>
    intro s hnd hfree
    rw [List.map_cons, List.nodup_cons] at hnd
    obtain ⟨hni, hnd'⟩ := hnd
    have hp0 : alGet (hash p.1) s.trie = none :=
      hfree p (List.mem_cons_self _ _)
    have hfree' : ∀ q ∈ rest,
        alGet (hash q.1) (FatDB.insert hash p.1 p.2 s).trie = none := by
      intro q hq
      have hne : hash q.1 ≠ hash p.1 := by
        intro hh
        exact hni (by rw [← hh]; exact List.mem_map_of_mem _ hq)
      show alGet (hash q.1) (alInsert (hash p.1) p.2 s.trie) = none
      rw [alGet_alInsert_ne _ _ _ _ hne]
      exact hfree q (List.mem_cons_of_mem _ hq)
    obtain ⟨hperm, haux⟩ := ih (FatDB.insert hash p.1 p.2 s) hnd' hfree'
    constructor
    · rw [runInserts_cons]
      have h1 : (FatDB.insert hash p.1 p.2 s).trie.Perm
          ((hash p.1, p.2) :: s.trie) := alInsert_perm_cons _ _ _ hp0
      have h2 := hperm.trans (List.Perm.append_left _ h1)
      simpa using h2.trans List.perm_middle
    · intro q hq
      rcases List.mem_cons.1 hq with rfl | hq'
      · rw [runInserts_cons]
        have hne : ∀ r ∈ rest, hash r.1 ≠ hash q.1 := by
          intro r hr hh
          exact hni (by rw [← hh]; exact List.mem_map_of_mem _ hr)
        rw [alGet_runInserts_aux_frame hash (hash q.1) rest _ hne]
        show alGet (hash q.1) (alInsert (hash q.1) q.1 s.aux) = some q.1
        exact alGet_alInsert_self _ _ _
      · exact haux q hq'

/-- Claim C3 (amended): for a trie built through the adapter by inserting
pairs whose keys have pairwise-distinct digests (in particular distinct
keys, the hash being collision-free on them), the FatDBIterator over the
resulting view yields exactly the inserted pairs, as an unordered
collection. -/
theorem fatdb_iteration_roundtrip (hash : Key → Digest)
    (ps : List (Key × Value))
    (hnd : (ps.map (fun p => hash p.1)).Nodup) :
    (fatIterRun (runInserts hash ps FatDB.new).aux
        (runInserts hash ps FatDB.new).trie).Perm
      (ps.map (fun p => ((some p.1 : Option Key), p.2))) := by
  obtain ⟨hperm, haux⟩ :=
    runInserts_build hash ps FatDB.new hnd (fun p _ => rfl)
  rw [fatIterRun, fatIterCollect_eq_map, fatIterSpec]
  rw [show FatDB.new.trie = [] from rfl, List.append_nil] at hperm
  have h2 := hperm.map
    (fun e => (alGet e.1 (runInserts hash ps FatDB.new).aux, e.2))
  rw [List.map_map] at h2
  refine h2.trans ?_
  have hcong :
      ps.map ((fun e : Digest × List Nat =>
            (alGet e.1 (runInserts hash ps FatDB.new).aux, e.2)) ∘
          (fun p => (hash p.1, p.2))) =
        ps.map (fun p => ((some p.1 : Option Key), p.2)) := by
    apply List.map_congr_left
    intro q hq
    show (alGet (hash q.1) (runInserts hash ps FatDB.new).aux, q.2) =
      ((some q.1 : Option Key), q.2)
    rw [haux q hq]
  rw [hcong]

/-- Witness for the amended claim C3 at two keys with distinct digests. -/
theorem fatdb_iteration_roundtrip_witness :
    (([([1], [2]), ([2], [3])] : List (Key × Value)).map
        (fun p => hashModel p.1)).Nodup ∧
    (fatIterRun (runInserts hashModel [([1], [2]), ([2], [3])] FatDB.new).aux
        (runInserts hashModel [([1], [2]), ([2], [3])] FatDB.new).trie).Perm
      (([([1], [2]), ([2], [3])] : List (Key × Value)).map
        (fun p => ((some p.1 : Option Key), p.2))) :=
  ⟨by decide, fatdb_iteration_roundtrip hashModel [([1], [2]), ([2], [3])]
    (by decide)⟩

/-- Counterexample to claim C3 as stated: the two pairs are distinct (the
list of pairs has no duplicates), yet iterating the trie built by inserting
them does not yield both pairs — the second insert of the same key
overwrites the first, so only one pair is yielded. -/
theorem fatdb_iteration_roundtrip_counterexample :
    (([([1], [0]), ([1], [1])] : List (Key × Value))).Nodup ∧
    ¬ (fatIterRun (runInserts hashModel [([1], [0]), ([1], [1])] FatDB.new).aux
        (runInserts hashModel [([1], [0]), ([1], [1])] FatDB.new).trie).Perm
      (([([1], [0]), ([1], [1])] : List (Key × Value)).map
        (fun p => ((some p.1 : Option Key), p.2))) := by
  constructor
  · decide
  · decide
